import Mathlib

/-!
Verification of the segment-decomposition core of rgrep (src/main.rs).

Strings are modelled as their UTF-8 byte sequences (`Bytes`), since the Rust
code slices `&str` values at byte offsets produced by the regex matcher.
Counting decoded characters of a valid UTF-8 slice is counting its
non-continuation bytes, which is what `charCount` does.

The regex matcher (`regex::Regex::find_iter`, an external crate) is abstracted
as the list of byte ranges it returns; `validFrom` states the guarantees the
engine provides (ordered, non-overlapping, in bounds).
-/

namespace Rgrep

/-- A byte string: the UTF-8 bytes of a Rust `&str`, each byte as a `Nat`. -/
abbrev Bytes := List Nat

/-- Whether a byte is the leading byte of a UTF-8 encoded character (ASCII, or a
byte `≥ 0xC0`); continuation bytes are `0x80..0xBF`. -/
def isCharBoundary (b : Nat) : Bool := b < 0x80 || 0xC0 ≤ b

/-- Number of decoded characters of a valid UTF-8 byte slice, as computed by
`text.chars().count()` in the Rust code: each character contributes exactly one
leading byte. -/
def charCount (s : Bytes) : Nat := (s.filter isCharBoundary).length

/-- Rust slice `&input[a..b]` (for `a ≤ b ≤ input.len()`). -/
def slice (input : Bytes) (a b : Nat) : Bytes := (input.take b).drop a

/-- The `Segment` enum of src/main.rs: `Text(&str)` or `Keyword { text, char_start }`. -/
inductive Segment where
  | Text (text : Bytes)
  | Keyword (text : Bytes) (char_start : Nat)
  deriving DecidableEq, Repr

/-- The `for ele in m` loop of `grep` in src/main.rs, together with the final
`if last < input.len() + 1` push. State: `last` is the byte cursor, `char_last`
the character cursor. For each range `(s, e)`: if `s > last`, push
`Text(&input[last..s])` and advance `char_last` by its character count; push
`Keyword(&input[s..e], char_last + 1)`; advance `char_last`; set `last := e`. -/
def grepLoop (input : Bytes) : List (Nat × Nat) → Nat → Nat → List Segment
  | [], last, _ =>
      if last < input.length + 1 then [Segment.Text (input.drop last)] else []
  | (s, e) :: rest, last, char_last =>
      if s > last then
        Segment.Text (slice input last s) ::
          Segment.Keyword (slice input s e) (char_last + charCount (slice input last s) + 1) ::
            grepLoop input rest e
              (char_last + charCount (slice input last s) + charCount (slice input s e))
      else
        Segment.Keyword (slice input s e) (char_last + 1) ::
          grepLoop input rest e (char_last + charCount (slice input s e))

/-- The `grep` function of src/main.rs, with the matcher output `m` (the list of
`(m.start(), m.end())` byte ranges of `r.find_iter(input)`) passed explicitly:
returns `none` when `m` is empty, otherwise the segment sequence built by the
loop starting from byte cursor 0 and character cursor 0. -/
def grep (m : List (Nat × Nat)) (input : Bytes) : Option (List Segment) :=
  if m.isEmpty then none else some (grepLoop input m 0 0)

/-- Guarantees of the byte ranges produced by the matcher scanning left to
right from byte cursor `last`: each range `(s, e)` has `last ≤ s ≤ e ≤ len`,
and subsequent ranges start at or after `e` (ordered, non-overlapping, within
the input). -/
def validFrom (len : Nat) : Nat → List (Nat × Nat) → Bool
  | _, [] => true
  | last, (s, e) :: rest =>
      decide (last ≤ s) && decide (s ≤ e) && decide (e ≤ len) && validFrom len e rest

/-- Concatenation of the text content of all segments, in order. -/
def segsText : List Segment → Bytes
  | [] => []
  | Segment.Text t :: rest => t ++ segsText rest
  | Segment.Keyword t _ :: rest => t ++ segsText rest

/-- The keyword segments of a sequence, in order, as `(char_start, text)` pairs. -/
def keywords : List Segment → List (Nat × Bytes)
  | [] => []
  | Segment.Text _ :: rest => keywords rest
  | Segment.Keyword t c :: rest => (c, t) :: keywords rest

/-- Byte cursor after processing a list of match ranges starting from `last`:
the end of the final range, or `last` itself if there is none. -/
def endOf : Nat → List (Nat × Nat) → Nat
  | last, [] => last
  | _, (_, e) :: rest => endOf e rest

/-- Whether `pat` is an initial run of `l`. -/
def matchesAt : Bytes → Bytes → Bool
  | [], _ => true
  | _ :: _, [] => false
  | p :: ps, b :: bs => p == b && matchesAt ps bs

/-- Modelled from the spec: the Matcher component (the external regex engine
invoked through `find_iter`, not code of this repository) must, per the spec,
find all non-overlapping matches in left-to-right order as byte ranges, with
leftmost-first semantics. This models it for a non-empty literal pattern: scan
the input left to right, and at each position emit the range of an occurrence
of `pat` and resume after it, or step one byte forward. `fuel` bounds the
scan by the input length. -/
def findIterAux (pat : Bytes) : Nat → Bytes → Nat → List (Nat × Nat)
  | 0, _, _ => []
  | fuel + 1, l, o =>
      match l with
      | [] => []
      | b :: rest =>
          if matchesAt pat (b :: rest) then
            (o, o + pat.length) ::
              findIterAux pat fuel (rest.drop (pat.length - 1)) (o + pat.length)
          else
            findIterAux pat fuel rest (o + 1)

/-- Modelled from the spec: `find_iter` of a non-empty literal pattern over an
input, as byte ranges. -/
def findIterLit (pat input : Bytes) : List (Nat × Nat) :=
  if pat.isEmpty then [] else findIterAux pat input.length input 0

/-- UTF-8 encoding of one character (RFC 3629 layout by codepoint range). -/
def utf8EncodeChar (c : Char) : Bytes :=
  let n := c.toNat
  if n < 0x80 then [n]
  else if n < 0x800 then [0xC0 + n / 0x40, 0x80 + n % 0x40]
  else if n < 0x10000 then [0xE0 + n / 0x1000, 0x80 + n / 0x40 % 0x40, 0x80 + n % 0x40]
  else [0xF0 + n / 0x40000, 0x80 + n / 0x1000 % 0x40, 0x80 + n / 0x40 % 0x40, 0x80 + n % 0x40]

/-- The UTF-8 bytes of a string, as Rust sees the contents of a `&str`. -/
def utf8Bytes (s : String) : Bytes := (s.data.map utf8EncodeChar).flatten

/-! Helper lemmas about byte slices and character counting. -/

lemma charCount_append (a b : Bytes) : charCount (a ++ b) = charCount a + charCount b := by
  simp [charCount, List.filter_append]

lemma take_eq_take_append_slice (input : Bytes) (a b : Nat) (hab : a ≤ b) :
    input.take b = input.take a ++ slice input a b := by
  conv_lhs => rw [← List.take_append_drop a (input.take b)]
  rw [List.take_take, min_eq_left hab]
  rfl

lemma charCount_take_add_slice (input : Bytes) (a b : Nat) (hab : a ≤ b) :
    charCount (input.take a) + charCount (slice input a b) = charCount (input.take b) := by
  rw [take_eq_take_append_slice input a b hab, charCount_append]

lemma drop_eq_slice_append (input : Bytes) (a b : Nat) (hab : a ≤ b) (ha : a ≤ input.length) :
    input.drop a = slice input a b ++ input.drop b := by
  conv_lhs => rw [← List.take_append_drop b input]
  rw [List.drop_append_of_le_length]
  · rfl
  · rw [List.length_take]
    omega

lemma validFrom_cons {len last s e : Nat} {rest : List (Nat × Nat)}
    (h : validFrom len last ((s, e) :: rest) = true) :
    last ≤ s ∧ s ≤ e ∧ e ≤ len ∧ validFrom len e rest = true := by
  simp only [validFrom, Bool.and_eq_true, decide_eq_true_eq] at h
  exact ⟨h.1.1.1, h.1.1.2, h.1.2, h.2⟩

/-- Unpacking a successful `grep` result: the segments are those of the loop. -/
lemma grep_some (m : List (Nat × Nat)) (input : Bytes) (segs : List Segment)
    (hg : grep m input = some segs) : segs = grepLoop input m 0 0 := by
  unfold grep at hg
  by_cases h : m.isEmpty
  · rw [if_pos h] at hg
    exact absurd hg (by simp)
  · rw [if_neg h] at hg
    exact (Option.some.inj hg).symm

/-- Main reconstruction invariant of the loop: the emitted text concatenates to
the input suffix from the byte cursor on. -/
lemma segsText_grepLoop (input : Bytes) (ms : List (Nat × Nat)) :
    ∀ (last cl : Nat), validFrom input.length last ms = true → last ≤ input.length →
      segsText (grepLoop input ms last cl) = input.drop last := by
  induction ms with
  | nil =>
      intro last cl _ hlast
      simp [grepLoop, segsText, Nat.lt_succ_of_le hlast]
  | cons p rest ih =>
      obtain ⟨s, e⟩ := p
      intro last cl hv hlast
      obtain ⟨hls, hse, hel, hrest⟩ := validFrom_cons hv
      have hsl : s ≤ input.length := le_trans hse hel
      by_cases hgt : s > last
      · simp only [grepLoop, if_pos hgt, segsText]
        rw [ih e _ hrest hel, ← drop_eq_slice_append input s e hse hsl,
          ← drop_eq_slice_append input last s (le_of_lt hgt) hlast]
      · have hseq : s = last := le_antisymm (not_lt.mp hgt) hls
        simp only [grepLoop, if_neg hgt, segsText]
        rw [ih e _ hrest hel, ← drop_eq_slice_append input s e hse hsl, hseq]

/-- Character-offset invariant of the loop: when the character cursor equals the
character count of the bytes before the byte cursor, each match `(s, e)` yields
the keyword `(charCount (input.take s) + 1, &input[s..e])`, in order. -/
lemma keywords_grepLoop (input : Bytes) (ms : List (Nat × Nat)) :
    ∀ (last cl : Nat), validFrom input.length last ms = true →
      cl = charCount (input.take last) →
      keywords (grepLoop input ms last cl) =
        ms.map (fun p => (charCount (input.take p.1) + 1, slice input p.1 p.2)) := by
  induction ms with
  | nil =>
      intro last cl _ _
      by_cases h : last < input.length + 1 <;> simp [grepLoop, h, keywords]
  | cons p rest ih =>
      obtain ⟨s, e⟩ := p
      intro last cl hv hcl
      obtain ⟨hls, hse, hel, hrest⟩ := validFrom_cons hv
      have hs : cl + charCount (slice input last s) = charCount (input.take s) := by
        rw [hcl, charCount_take_add_slice input last s hls]
      have hes : charCount (input.take s) + charCount (slice input s e) =
          charCount (input.take e) := charCount_take_add_slice input s e hse
      by_cases hgt : s > last
      · simp only [grepLoop, if_pos hgt, keywords, List.map_cons]
        rw [hs, ih e _ hrest hes]
      · have hseq : s = last := le_antisymm (not_lt.mp hgt) hls
        have hcs : cl = charCount (input.take s) := by rw [hseq, hcl]
        simp only [grepLoop, if_neg hgt, keywords, List.map_cons]
        rw [hcs, ih e _ hrest hes]

/-- Every keyword the loop emits has char offset at least one past the incoming
character cursor. -/
lemma keywords_grepLoop_le (input : Bytes) (ms : List (Nat × Nat)) :
    ∀ (last cl : Nat) (p : Nat × Bytes),
      p ∈ keywords (grepLoop input ms last cl) → cl + 1 ≤ p.1 := by
  induction ms with
  | nil =>
      intro last cl p hp
      by_cases h : last < input.length + 1 <;> simp [grepLoop, h, keywords] at hp
  | cons q rest ih =>
      obtain ⟨s, e⟩ := q
      intro last cl p hp
      by_cases hgt : s > last
      · simp only [grepLoop, if_pos hgt, keywords, List.mem_cons] at hp
        rcases hp with h | h
        · rw [h]; omega
        · have := ih e _ p h; omega
      · simp only [grepLoop, if_neg hgt, keywords, List.mem_cons] at hp
        rcases hp with h | h
        · simp [h]
        · have := ih e _ p h; omega

/-- Monotonicity of keyword character offsets emitted by the loop. -/
lemma keywords_grepLoop_pairwise (input : Bytes) (ms : List (Nat × Nat)) :
    ∀ (last cl : Nat),
      (keywords (grepLoop input ms last cl)).Pairwise
        (fun p q => p.1 + charCount p.2 ≤ q.1) := by
  induction ms with
  | nil =>
      intro last cl
      by_cases h : last < input.length + 1 <;> simp [grepLoop, h, keywords]
  | cons q rest ih =>
      obtain ⟨s, e⟩ := q
      intro last cl
      by_cases hgt : s > last
      · simp only [grepLoop, if_pos hgt, keywords]
        refine List.pairwise_cons.2 ⟨?_, ih e _⟩
        intro r hr
        have := keywords_grepLoop_le input rest e _ r hr
        simp only
        omega
      · simp only [grepLoop, if_neg hgt, keywords]
        refine List.pairwise_cons.2 ⟨?_, ih e _⟩
        intro r hr
        have := keywords_grepLoop_le input rest e _ r hr
        simp only
        omega

/-- The loop output always ends with the text segment holding the input suffix
from the final byte cursor on. -/
lemma grepLoop_getLast (input : Bytes) (ms : List (Nat × Nat)) :
    ∀ (last cl : Nat), validFrom input.length last ms = true → last ≤ input.length →
      (grepLoop input ms last cl).getLast? =
        some (Segment.Text (input.drop (endOf last ms))) := by
  induction ms with
  | nil =>
      intro last cl _ hlast
      simp [grepLoop, endOf, Nat.lt_succ_of_le hlast]
  | cons q rest ih =>
      obtain ⟨s, e⟩ := q
      intro last cl hv hlast
      obtain ⟨hls, hse, hel, hrest⟩ := validFrom_cons hv
      by_cases hgt : s > last
      · simp only [grepLoop, if_pos hgt, endOf]
        rw [List.getLast?_cons, List.getLast?_cons]
        have h := ih e (cl + charCount (slice input last s) + charCount (slice input s e))
          hrest hel
        rw [h]
        simp
      · simp only [grepLoop, if_neg hgt, endOf]
        rw [List.getLast?_cons]
        have h := ih e (cl + charCount (slice input s e)) hrest hel
        rw [h]
        simp

/-- The byte cursor after all matches is the end of the final range. -/
lemma endOf_getLast (ms : List (Nat × Nat)) :
    ∀ (last s e : Nat), ms.getLast? = some (s, e) → endOf last ms = e := by
  induction ms with
  | nil => intro last s e h; simp at h
  | cons q rest ih =>
      obtain ⟨a, b⟩ := q
      intro last s e h
      cases rest with
      | nil =>
          simp at h
          simp [endOf, h.2]
      | cons r rest2 =>
          rw [List.getLast?_cons_cons] at h
          exact ih b s e h

/-- Two ranges meeting with zero gap produce adjacent keyword segments. -/
lemma grepLoop_adjacent (input : Bytes) (s₁ e₁ e₂ : Nat) (m₂ : List (Nat × Nat)) :
    ∀ (m₁ : List (Nat × Nat)) (last cl : Nat), ∃ l c₁ c₂ r,
      grepLoop input (m₁ ++ (s₁, e₁) :: (e₁, e₂) :: m₂) last cl =
        l ++ Segment.Keyword (slice input s₁ e₁) c₁ ::
          Segment.Keyword (slice input e₁ e₂) c₂ :: r := by
  intro m₁
  induction m₁ with
  | nil =>
      intro last cl
      by_cases hgt : s₁ > last
      · refine ⟨[Segment.Text (slice input last s₁)],
          cl + charCount (slice input last s₁) + 1,
          cl + charCount (slice input last s₁) + charCount (slice input s₁ e₁) + 1,
          grepLoop input m₂ e₂
            (cl + charCount (slice input last s₁) + charCount (slice input s₁ e₁) +
              charCount (slice input e₁ e₂)), ?_⟩
        simp [grepLoop, hgt, lt_irrefl]
      · refine ⟨[], cl + 1, cl + charCount (slice input s₁ e₁) + 1,
          grepLoop input m₂ e₂
            (cl + charCount (slice input s₁ e₁) + charCount (slice input e₁ e₂)), ?_⟩
        simp [grepLoop, hgt, lt_irrefl]
  | cons q m₁ ih =>
      obtain ⟨s, e⟩ := q
      intro last cl
      by_cases hgt : s > last
      · obtain ⟨l, c₁, c₂, r, hl⟩ :=
          ih e (cl + charCount (slice input last s) + charCount (slice input s e))
        refine ⟨Segment.Text (slice input last s) ::
          Segment.Keyword (slice input s e)
            (cl + charCount (slice input last s) + 1) :: l, c₁, c₂, r, ?_⟩
        simp only [List.cons_append, grepLoop, if_pos hgt, List.append_eq]
        rw [hl]
      · obtain ⟨l, c₁, c₂, r, hl⟩ := ih e (cl + charCount (slice input s e))
        refine ⟨Segment.Keyword (slice input s e) (cl + 1) :: l, c₁, c₂, r, ?_⟩
        simp only [List.cons_append, grepLoop, if_neg hgt, List.append_eq]
        rw [hl]

/-! Claim theorems. -/

/-- Claim C1 (code evaluated at the failing input): contrary to the claim that a
match ending exactly at the input byte length leaves no trailing Text segment,
`grep` on input "ab" with the single match spanning the whole string returns a
two-element sequence ending in an empty Text segment, because the final guard
compares the byte cursor with `input.len() + 1` instead of `input.len()`. -/
theorem grep_full_match_trailing_empty_text :
    grep [(0, 2)] [97, 98] = some [Segment.Keyword [97, 98] 1, Segment.Text []] := by decide

/-- Claim C2: whenever `grep` returns a segment sequence for matcher output
satisfying the engine guarantees, concatenating the text of all segments in
order reconstructs the input exactly. -/
theorem grep_reconstruct (input : Bytes) (m : List (Nat × Nat)) (segs : List Segment)
    (hm : validFrom input.length 0 m = true) (hg : grep m input = some segs) :
    segsText segs = input := by
  rw [grep_some m input segs hg, segsText_grepLoop input m 0 0 hm (Nat.zero_le _),
    List.drop_zero]

theorem grep_reconstruct_witness :
    segsText [Segment.Keyword [97] 1, Segment.Text [98]] = [97, 98] :=
  grep_reconstruct [97, 98] [(0, 1)] [Segment.Keyword [97] 1, Segment.Text [98]]
    (by decide) (by decide)

/-- Claim C3: in any sequence returned by `grep`, for keyword segments `k1`
before `k2`, `k1.char_start + charCount k1.text ≤ k2.char_start`. -/
theorem grep_keyword_offsets_mono (input : Bytes) (m : List (Nat × Nat))
    (segs : List Segment) (hg : grep m input = some segs) :
    (keywords segs).Pairwise (fun p q => p.1 + charCount p.2 ≤ q.1) := by
  rw [grep_some m input segs hg]
  exact keywords_grepLoop_pairwise input m 0 0

theorem grep_keyword_offsets_mono_witness :
    (keywords [Segment.Keyword [97] 1, Segment.Keyword [98] 2,
      Segment.Text []]).Pairwise (fun p q => p.1 + charCount p.2 ≤ q.1) :=
  grep_keyword_offsets_mono [97, 98] [(0, 1), (1, 2)]
    [Segment.Keyword [97] 1, Segment.Keyword [98] 2, Segment.Text []] (by decide)

/-- Claim C4: `grep` returns `none` exactly when the matcher found zero ranges;
this is the signal that the line is not printed. -/
theorem grep_none_iff_no_matches (m : List (Nat × Nat)) (input : Bytes) :
    grep m input = none ↔ m = [] := by
  unfold grep
  cases m <;> simp

/-- Claim C5: each keyword segment emitted for a match whose byte range starts
at `s` carries `char_start = charCount (input.take s) + 1`, one plus the number
of characters before byte offset `s`; with its text being the matched slice,
in match order. A match starting at byte 0 therefore gets `char_start = 1`. -/
theorem grep_keyword_char_start (input : Bytes) (m : List (Nat × Nat))
    (segs : List Segment) (hm : validFrom input.length 0 m = true)
    (hg : grep m input = some segs) :
    keywords segs =
      m.map (fun p => (charCount (input.take p.1) + 1, slice input p.1 p.2)) := by
  rw [grep_some m input segs hg]
  exact keywords_grepLoop input m 0 0 hm rfl

theorem grep_keyword_char_start_witness :
    keywords [Segment.Text [228, 184, 128], Segment.Keyword [97] 2, Segment.Text []] =
      ([(3, 4)] : List (Nat × Nat)).map
        (fun p => (charCount (([228, 184, 128, 97] : Bytes).take p.1) + 1,
          slice [228, 184, 128, 97] p.1 p.2)) :=
  grep_keyword_char_start [228, 184, 128, 97] [(3, 4)]
    [Segment.Text [228, 184, 128], Segment.Keyword [97] 2, Segment.Text []]
    (by decide) (by decide)

/-- Claim C6: on the seed input with a literal pattern matching the two
characters 一只, `grep` returns exactly the five segments
Text(这里有), Keyword(一只, 4), Text(鸟,那里有), Keyword(一只, 11), Text(鱼。). -/
theorem grep_cjk_seed_case :
    grep (findIterLit (utf8Bytes "一只") (utf8Bytes "这里有一只鸟,那里有一只鱼。"))
        (utf8Bytes "这里有一只鸟,那里有一只鱼。") =
      some [Segment.Text (utf8Bytes "这里有"),
        Segment.Keyword (utf8Bytes "一只") 4,
        Segment.Text (utf8Bytes "鸟,那里有"),
        Segment.Keyword (utf8Bytes "一只") 11,
        Segment.Text (utf8Bytes "鱼。")] := by decide

/-- Claim C7: when the first match starts at byte offset 0, the returned
sequence has no leading Text segment: its first element is that match's
Keyword segment, with char offset 1. -/
theorem grep_match_at_start_no_leading_text (input : Bytes) (e : Nat)
    (rest : List (Nat × Nat)) (segs : List Segment)
    (hg : grep ((0, e) :: rest) input = some segs) :
    segs.head? = some (Segment.Keyword (slice input 0 e) 1) := by
  rw [grep_some _ _ _ hg]
  simp [grepLoop]

theorem grep_match_at_start_no_leading_text_witness :
    ([Segment.Keyword [97, 98] 1, Segment.Text []] : List Segment).head? =
      some (Segment.Keyword (slice [97, 98] 0 2) 1) :=
  grep_match_at_start_no_leading_text [97, 98] 2 []
    [Segment.Keyword [97, 98] 1, Segment.Text []] (by decide)

/-- Claim C8: two consecutive match ranges meeting with zero gap (the first
ends where the second starts) yield adjacent Keyword segments with no Text
segment between them. -/
theorem grep_adjacent_matches_no_text_between (input : Bytes)
    (m₁ m₂ : List (Nat × Nat)) (s₁ e₁ e₂ : Nat) (segs : List Segment)
    (hg : grep (m₁ ++ (s₁, e₁) :: (e₁, e₂) :: m₂) input = some segs) :
    ∃ l c₁ c₂ r, segs = l ++ Segment.Keyword (slice input s₁ e₁) c₁ ::
      Segment.Keyword (slice input e₁ e₂) c₂ :: r := by
  rw [grep_some _ _ _ hg]
  exact grepLoop_adjacent input s₁ e₁ e₂ m₂ m₁ 0 0

theorem grep_adjacent_matches_no_text_between_witness :
    ∃ l c₁ c₂ r,
      ([Segment.Keyword [97] 1, Segment.Keyword [98] 2, Segment.Text []] :
          List Segment) =
        l ++ Segment.Keyword (slice [97, 98] 0 1) c₁ ::
          Segment.Keyword (slice [97, 98] 1 2) c₂ :: r :=
  grep_adjacent_matches_no_text_between [97, 98] [] [] 0 1 2
    [Segment.Keyword [97] 1, Segment.Keyword [98] 2, Segment.Text []] (by decide)

/-- Claim C9: every sequence returned by `grep` on valid matcher output ends
with a Text segment, namely the input suffix after the final match end; in
particular, when the last match ends exactly at the input byte length, the
final element is the empty Text segment. -/
theorem grep_ends_with_text (input : Bytes) (m : List (Nat × Nat))
    (segs : List Segment) (s₀ : Nat) (hm : validFrom input.length 0 m = true)
    (hg : grep m input = some segs) :
    segs.getLast? = some (Segment.Text (input.drop (endOf 0 m))) ∧
      (m.getLast? = some (s₀, input.length) →
        segs.getLast? = some (Segment.Text [])) := by
  have hsegs := grep_some m input segs hg
  have h := grepLoop_getLast input m 0 0 hm (Nat.zero_le _)
  constructor
  · rw [hsegs]
    exact h
  · intro hlast
    rw [hsegs]
    rw [endOf_getLast m 0 s₀ input.length hlast, List.drop_length] at h
    exact h

theorem grep_ends_with_text_witness :
    ([Segment.Keyword [97, 98] 1, Segment.Text []] : List Segment).getLast? =
        some (Segment.Text (([97, 98] : Bytes).drop (endOf 0 [(0, 2)]))) ∧
      (([(0, 2)] : List (Nat × Nat)).getLast? = some (0, ([97, 98] : Bytes).length) →
        ([Segment.Keyword [97, 98] 1, Segment.Text []] : List Segment).getLast? =
          some (Segment.Text [])) :=
  grep_ends_with_text [97, 98] [(0, 2)] [Segment.Keyword [97, 98] 1, Segment.Text []]
    0 (by decide) (by decide)

/-- Claim C10: whenever `grep` returns a sequence, it is non-empty, contains at
least one Keyword segment, and every Keyword segment has `char_start ≥ 1`. -/
theorem grep_some_keyword_invariants (input : Bytes) (m : List (Nat × Nat))
    (segs : List Segment) (hg : grep m input = some segs) :
    segs ≠ [] ∧ keywords segs ≠ [] ∧ ∀ p ∈ keywords segs, 1 ≤ p.1 := by
  have hsegs := grep_some m input segs hg
  have hne : ¬ m.isEmpty = true := by
    intro h
    rw [grep, if_pos h] at hg
    exact Option.noConfusion hg
  obtain ⟨q, rest, rfl⟩ : ∃ q rest, m = q :: rest := by
    cases m with
    | nil => simp at hne
    | cons q rest => exact ⟨q, rest, rfl⟩
  obtain ⟨s, e⟩ := q
  refine ⟨?_, ?_, ?_⟩
  · rw [hsegs]
    by_cases hgt : s > 0 <;> simp [grepLoop, hgt]
  · rw [hsegs]
    by_cases hgt : s > 0 <;> simp [grepLoop, hgt, keywords]
  · intro p hp
    rw [hsegs] at hp
    have := keywords_grepLoop_le input ((s, e) :: rest) 0 0 p hp
    omega

theorem grep_some_keyword_invariants_witness :
    ([Segment.Keyword [97, 98] 1, Segment.Text []] : List Segment) ≠ [] ∧
      keywords [Segment.Keyword [97, 98] 1, Segment.Text []] ≠ [] ∧
      1 ≤ ((1 : Nat), ([97, 98] : Bytes)).1 :=
  ⟨(grep_some_keyword_invariants [97, 98] [(0, 2)]
      [Segment.Keyword [97, 98] 1, Segment.Text []] (by decide)).1,
   (grep_some_keyword_invariants [97, 98] [(0, 2)]
      [Segment.Keyword [97, 98] 1, Segment.Text []] (by decide)).2.1,
   (grep_some_keyword_invariants [97, 98] [(0, 2)]
      [Segment.Keyword [97, 98] 1, Segment.Text []] (by decide)).2.2
     (1, [97, 98]) (by decide)⟩

end Rgrep

